import Mathlib

/-!
Shallow embedding of `src/primitives/block.h` (SolarCoin block data model):
block header, block, block locator, their wire serialization, the
proof-of-work / proof-of-stake discriminator, and the misbehavior counter.

Machine integers are modelled as `Nat` (unsigned fields) and `Int`
(signed `int` fields) with explicit bounds where overflow or the byte
layout matters.  Streams are `List Nat` with every entry below 256.
Fallible operations (out-of-bounds element access, reading past the end
of a stream) return `Option`.
-/

namespace SolarCoin

/-- One byte of a serialized stream, as a natural number below 256. -/
abbrev Byte := Nat

/-- Little-endian encoding of `n % 256 ^ w` on exactly `w` bytes, as used
for the fixed-width integer fields of the wire format. -/
def leBytes : Nat → Nat → List Byte
  | 0, _ => []
  | w + 1, n => n % 256 :: leBytes w (n / 256)

/-- Little-endian reading of a byte list back into a natural number. -/
def fromLE : List Byte → Nat
  | [] => 0
  | b :: bs => b + 256 * fromLE bs

/-- Reads exactly `n` bytes from the stream; fails when the stream is
shorter (the C++ stream throws `ios_base::failure` on a short read). -/
def readBytes (n : Nat) (s : List Byte) : Option (List Byte × List Byte) :=
  if n ≤ s.length then some (s.take n, s.drop n) else none

/-- Reads a `w`-byte little-endian unsigned integer. -/
def deserNat (w : Nat) (s : List Byte) : Option (Nat × List Byte) :=
  match readBytes w s with
  | none => none
  | some (bs, r) => some (fromLE bs, r)

/-- Serializes a signed 32-bit integer (two's complement, little-endian). -/
def serInt32 (v : Int) : List Byte := leBytes 4 (v % 4294967296).toNat

/-- Reads a signed 32-bit integer (two's complement, little-endian). -/
def deserInt32 (s : List Byte) : Option (Int × List Byte) :=
  match deserNat 4 s with
  | none => none
  | some (n, r) =>
    some (if n < 2147483648 then (n : Int) else (n : Int) - 4294967296, r)

theorem leBytes_length (w n : Nat) : (leBytes w n).length = w := by
  induction w generalizing n with
  | zero => rfl
  | succ w ih => simp [leBytes, ih]

theorem fromLE_leBytes (w n : Nat) (h : n < 256 ^ w) :
    fromLE (leBytes w n) = n := by
  induction w generalizing n with
  | zero => simp [pow_zero] at h; simp [leBytes, fromLE, h]
  | succ w ih =>
    have hdiv : n / 256 < 256 ^ w := by
      rw [Nat.div_lt_iff_lt_mul (by norm_num)]
      calc n < 256 ^ (w + 1) := h
        _ = 256 ^ w * 256 := by ring
    simp only [leBytes, fromLE, ih (n / 256) hdiv]
    omega

theorem readBytes_exact (bs rest : List Byte) :
    readBytes bs.length (bs ++ rest) = some (bs, rest) := by
  simp [readBytes, List.take_append_of_le_length, List.drop_append_of_le_length]

theorem deserNat_ser (w n : Nat) (rest : List Byte) (h : n < 256 ^ w) :
    deserNat w (leBytes w n ++ rest) = some (n, rest) := by
  have hr : readBytes w (leBytes w n ++ rest) = some (leBytes w n, rest) := by
    have h2 := readBytes_exact (leBytes w n) rest
    rwa [leBytes_length] at h2
  simp only [deserNat, hr]
  simp [fromLE_leBytes w n h]

theorem deserInt32_ser (v : Int) (rest : List Byte)
    (h1 : -2147483648 ≤ v) (h2 : v < 2147483648) :
    deserInt32 (serInt32 v ++ rest) = some (v, rest) := by
  have hb : (v % 4294967296).toNat < 256 ^ 4 := by norm_num; omega
  simp only [serInt32, deserInt32, deserNat_ser 4 _ rest hb]
  congr 1
  congr 1
  split <;> omega

/-- Modelled from the spec: the "length-prefixed sequence" marker of the
serialization layer (`serialize.h` is external to this header).  Bitcoin's
CompactSize: one byte below 253, otherwise a tag byte and a 2-, 4- or
8-byte little-endian integer. -/
def serCompactSize (n : Nat) : List Byte :=
  if n < 253 then [n]
  else if n < 65536 then 253 :: leBytes 2 n
  else if n < 4294967296 then 254 :: leBytes 4 n
  else 255 :: leBytes 8 n

/-- Modelled from the spec: CompactSize reader matching `serCompactSize`. -/
def deserCompactSize (s : List Byte) : Option (Nat × List Byte) :=
  match s with
  | [] => none
  | b :: r =>
    if b < 253 then some (b, r)
    else if b = 253 then deserNat 2 r
    else if b = 254 then deserNat 4 r
    else deserNat 8 r

theorem deserCompactSize_ser (n : Nat) (rest : List Byte)
    (h : n < 18446744073709551616) :
    deserCompactSize (serCompactSize n ++ rest) = some (n, rest) := by
  by_cases h1 : n < 253
  · simp [serCompactSize, deserCompactSize, h1]
  · by_cases h2 : n < 65536
    · have : deserNat 2 (leBytes 2 n ++ rest) = some (n, rest) :=
        deserNat_ser 2 n rest (by norm_num; omega)
      simp [serCompactSize, deserCompactSize, h1, h2, this]
    · by_cases h3 : n < 4294967296
      · have : deserNat 4 (leBytes 4 n ++ rest) = some (n, rest) :=
          deserNat_ser 4 n rest (by norm_num; omega)
        simp [serCompactSize, deserCompactSize, h1, h2, h3, this]
      · have : deserNat 8 (leBytes 8 n ++ rest) = some (n, rest) :=
          deserNat_ser 8 n rest (by norm_num; omega)
        simp [serCompactSize, deserCompactSize, h1, h2, h3, this]

/-- Modelled from the spec: vector serialization is a CompactSize count
followed by each element's encoding. -/
def serVec (enc : α → List Byte) (xs : List α) : List Byte :=
  serCompactSize xs.length ++ xs.flatMap enc

/-- Reads `n` consecutive elements with the element reader `dec`. -/
def deserItems (dec : List Byte → Option (α × List Byte)) :
    Nat → List Byte → Option (List α × List Byte)
  | 0, s => some ([], s)
  | n + 1, s =>
    match dec s with
    | none => none
    | some (x, s1) =>
      match deserItems dec n s1 with
      | none => none
      | some (xs, s2) => some (x :: xs, s2)

/-- Modelled from the spec: vector reader matching `serVec`. -/
def deserVec (dec : List Byte → Option (α × List Byte)) (s : List Byte) :
    Option (List α × List Byte) :=
  match deserCompactSize s with
  | none => none
  | some (n, r) => deserItems dec n r

theorem deserItems_ser (dec : List Byte → Option (α × List Byte))
    (enc : α → List Byte) (xs : List α) (rest : List Byte)
    (h : ∀ x ∈ xs, ∀ r, dec (enc x ++ r) = some (x, r)) :
    deserItems dec xs.length (xs.flatMap enc ++ rest) = some (xs, rest) := by
  induction xs with
  | nil => simp [deserItems]
  | cons x xs ih =>
    have hx := h x (by simp) (xs.flatMap enc ++ rest)
    have htail := ih (fun y hy r => h y (by simp [hy]) r)
    simp only [List.flatMap_cons, List.length_cons, List.append_assoc] at hx ⊢
    simp [deserItems, hx, htail]

theorem deserVec_ser (dec : List Byte → Option (α × List Byte))
    (enc : α → List Byte) (xs : List α) (rest : List Byte)
    (hlen : xs.length < 18446744073709551616)
    (h : ∀ x ∈ xs, ∀ r, dec (enc x ++ r) = some (x, r)) :
    deserVec dec (serVec enc xs ++ rest) = some (xs, rest) := by
  simp only [serVec, List.append_assoc, deserVec,
    deserCompactSize_ser xs.length _ hlen]
  exact deserItems_ser dec enc xs rest h

/-- Modelled from the spec: a byte vector (`std::vector<unsigned char>`) is
serialized as a CompactSize count followed by the raw bytes. -/
def serBytes (v : List Byte) : List Byte := serCompactSize v.length ++ v

/-- Modelled from the spec: byte-vector reader matching `serBytes`. -/
def deserBytesVec (s : List Byte) : Option (List Byte × List Byte) :=
  match deserCompactSize s with
  | none => none
  | some (n, r) => readBytes n r

theorem deserBytesVec_ser (v rest : List Byte)
    (hlen : v.length < 18446744073709551616) :
    deserBytesVec (serBytes v ++ rest) = some (v, rest) := by
  simp only [serBytes, List.append_assoc, deserBytesVec,
    deserCompactSize_ser v.length _ hlen]
  exact readBytes_exact v rest

/-- Modelled from the spec: transaction internals live in
`primitives/transaction.h`, external to this header; the spec treats the
transaction as "an opaque transaction type exposing 'is this a stake
transaction' and 'first input's referenced output plus timestamp'".
`COutPoint` is the referenced output of a transaction input; `hash` is a
256-bit id and `n` an output index.  The default-constructed value used
as the spec's "zeroed sentinel" is all-zero. -/
structure COutPoint where
  hash : Nat
  n : Nat
deriving DecidableEq

/-- The spec's zeroed sentinel outpoint (`COutPoint()`). -/
def nullOutPoint : COutPoint := ⟨0, 0⟩

/-- Modelled from the spec: a transaction input, of which this layer only
reads the referenced output `prevout`. -/
structure CTxIn where
  prevout : COutPoint
deriving DecidableEq

/-- Modelled from the spec: the opaque transaction handle.  This layer
consumes its stake classification, its timestamp and its inputs. -/
structure CTransaction where
  fCoinStake : Bool
  nTime : Nat
  vin : List CTxIn
deriving DecidableEq

/-- Modelled from the spec: the opaque "is this a stake transaction"
classification exposed by the transaction type. -/
def CTransaction.IsCoinStake (tx : CTransaction) : Bool := tx.fCoinStake

/-- `CBlockHeader`: version, previous-block link, merkle root, timestamp,
difficulty bits, nonce (`block.h` lines 28-98). -/
structure CBlockHeader where
  nVersion : Int
  hashPrevBlock : Nat
  hashMerkleRoot : Nat
  nTime : Nat
  nBits : Nat
  nNonce : Nat
deriving DecidableEq

def LEGACY_VERSION_2 : Int := 2
def LEGACY_VERSION_3 : Int := 3
def CURRENT_VERSION : Int := 4

/-- `CBlockHeader::SetNull`: zeroes every field. -/
def CBlockHeader.SetNull (_h : CBlockHeader) : CBlockHeader := ⟨0, 0, 0, 0, 0, 0⟩

/-- `CBlockHeader::IsNull`: `return (nBits == 0);`. -/
def CBlockHeader.IsNull (h : CBlockHeader) : Bool := h.nBits == 0

/-- `CBlockHeader::GetBlockTime`: widening conversion of `nTime`. -/
def CBlockHeader.GetBlockTime (h : CBlockHeader) : Int := (h.nTime : Int)

/-- `CBlockHeader::SerializationOp` writer: the six fields in order,
fixed-width little-endian. -/
def serHeader (h : CBlockHeader) : List Byte :=
  serInt32 h.nVersion ++ leBytes 32 h.hashPrevBlock ++
  leBytes 32 h.hashMerkleRoot ++ leBytes 4 h.nTime ++
  leBytes 4 h.nBits ++ leBytes 4 h.nNonce

/-- `CBlockHeader::GetHash`: `Hash(BEGIN(nVersion), END(nNonce))` — the
identity-hash primitive applied to the fixed six-field header span.  The
hash primitive itself lives in `hash.h`, external to this header, so it is
a parameter here. -/
def CBlockHeader.GetHash (hashFn : List Byte → Nat) (h : CBlockHeader) : Nat :=
  hashFn (serHeader h)

/-- `CBlock`: header (base subobject) plus transactions, block signature,
and the memory-only misbehavior counter and checked flag
(`block.h` lines 101-205).  The memory-only merkle-tree cache is not
consumed by any operation modelled here. -/
structure CBlock extends CBlockHeader where
  vtx : List CTransaction
  vchBlockSig : List Byte
  nDoS : Int
  fChecked : Bool
deriving DecidableEq

/-- `CBlock::SetNull`: zeroes the header and clears the body fields. -/
def CBlock.SetNull (_b : CBlock) : CBlock := ⟨⟨0, 0, 0, 0, 0, 0⟩, [], [], 0, false⟩

/-- The default-constructed block (`CBlock()` calls `SetNull`). -/
def nullCBlock : CBlock := ⟨⟨0, 0, 0, 0, 0, 0⟩, [], [], 0, false⟩

/-- `CBlock::GetBlockHeader`: copies the six header fields into a
standalone header value. -/
def CBlock.GetBlockHeader (b : CBlock) : CBlockHeader :=
  ⟨b.nVersion, b.hashPrevBlock, b.hashMerkleRoot, b.nTime, b.nBits, b.nNonce⟩

/-- `CBlock::GetHash` (inherited): hashes the header span of the base
subobject; the transaction list and signature are outside that span. -/
def CBlock.GetHash (hashFn : List Byte → Nat) (b : CBlock) : Nat :=
  CBlockHeader.GetHash hashFn b.toCBlockHeader

/-- `CBlock::IsProofOfStake`:
`const CTransaction& tx = *vtx[1]; return (vtx.size() > 1 && tx.IsCoinStake());`.
The reference is bound BEFORE the size test, so for `vtx.size() <= 1` the
element access is out of bounds (undefined behavior), modelled as `none`. -/
def CBlock.IsProofOfStake (b : CBlock) : Option Bool :=
  match b.vtx[1]? with
  | none => none
  | some tx => some (decide (1 < b.vtx.length) && tx.IsCoinStake)

/-- `CBlock::IsProofOfWork`: `return !IsProofOfStake();`. -/
def CBlock.IsProofOfWork (b : CBlock) : Option Bool :=
  (b.IsProofOfStake).map (fun x => !x)

/-- `CBlock::GetProofOfStake`:
`const CTransaction& tx = *vtx[1];` (unguarded, so out of bounds for
`vtx.size() <= 1`, modelled as `none`) then
`IsProofOfStake() ? make_pair(tx.vin[0].prevout, tx.nTime)
                  : make_pair(COutPoint(), 0)`. -/
def CBlock.GetProofOfStake (b : CBlock) : Option (COutPoint × Nat) :=
  match b.vtx[1]? with
  | none => none
  | some tx =>
    match b.IsProofOfStake with
    | none => none
    | some true =>
      match tx.vin[0]? with
      | none => none
      | some txin => some (txin.prevout, tx.nTime)
    | some false => some (nullOutPoint, 0)

/-- `CBlock::DoS`: `nDoS += nDoSIn; return fIn;` — adds the penalty to the
mutable misbehavior counter and passes the boolean through.  Modelled as
returning the updated block together with the returned boolean. -/
def CBlock.DoS (b : CBlock) (nDoSIn : Int) (fIn : Bool) : CBlock × Bool :=
  ({ b with nDoS := b.nDoS + nDoSIn }, fIn)

/-- Modelled from the spec: the serialization context of the C++ stream.
`headerOnly` is the `SER_BLOCKHEADERONLY` bit of `s.GetType()`, `getHash`
the `SER_GETHASH` bit, and `nVersion` is `s.GetVersion()`
(`serialize.h` is external to this header). -/
structure SerParams where
  headerOnly : Bool
  getHash : Bool
  nVersion : Int
deriving DecidableEq

/-- `CBlockLocator`: an ordered list of 256-bit block identity hashes. -/
structure CBlockLocator where
  vHave : List Nat
deriving DecidableEq

/-- `CBlockLocator::IsNull`: `return vHave.empty();`. -/
def CBlockLocator.IsNull (loc : CBlockLocator) : Bool := loc.vHave.isEmpty

/-- `CBlockLocator::SerializationOp` writer: a protocol-version integer
when the context is not a pure-hash context, then the hash vector. -/
def serLocator (p : SerParams) (loc : CBlockLocator) : List Byte :=
  (if p.getHash then [] else serInt32 p.nVersion) ++
  serVec (leBytes 32) loc.vHave

/-- Modelled from the spec: an outpoint's wire encoding (256-bit hash then
32-bit index, little-endian). -/
def serOutPoint (o : COutPoint) : List Byte := leBytes 32 o.hash ++ leBytes 4 o.n

/-- Modelled from the spec: outpoint reader matching `serOutPoint`. -/
def deserOutPoint (s : List Byte) : Option (COutPoint × List Byte) :=
  match deserNat 32 s with
  | none => none
  | some (h, s1) =>
    match deserNat 4 s1 with
    | none => none
    | some (n, s2) => some (⟨h, n⟩, s2)

/-- Modelled from the spec: a transaction input's encoding is its
referenced outpoint. -/
def serTxIn (i : CTxIn) : List Byte := serOutPoint i.prevout

/-- Modelled from the spec: input reader matching `serTxIn`. -/
def deserTxIn (s : List Byte) : Option (CTxIn × List Byte) :=
  match deserOutPoint s with
  | none => none
  | some (o, s1) => some (⟨o⟩, s1)

/-- Modelled from the spec: the opaque transaction's wire encoding —
"length-prefixed sequence of transaction encodings" leaves the element
encoding external; modelled as an injective byte encoding of the fields
this layer consumes: stake flag, timestamp, inputs. -/
def serTx (tx : CTransaction) : List Byte :=
  (if tx.fCoinStake then [1] else [0]) ++ leBytes 4 tx.nTime ++
  serVec serTxIn tx.vin

/-- Modelled from the spec: transaction reader matching `serTx`. -/
def deserTx (s : List Byte) : Option (CTransaction × List Byte) :=
  match s with
  | [] => none
  | b :: s0 =>
    match deserNat 4 s0 with
    | none => none
    | some (t, s1) =>
      match deserVec deserTxIn s1 with
      | none => none
      | some (ins, s2) => some (⟨b != 0, t, ins⟩, s2)

/-- `CBlock::SerializationOp` writer (`block.h` lines 134-150): always the
header; then, unless the context is header-only with a pre-legacy-3
version, the transaction vector; then, only in full mode with a
legacy-3-or-later version, the block signature. -/
def serBlock (p : SerParams) (b : CBlock) : List Byte :=
  serHeader b.toCBlockHeader ++
  (if p.headerOnly = false ∨ LEGACY_VERSION_3 ≤ b.nVersion then
    serVec serTx b.vtx ++
    (if p.headerOnly = false ∧ LEGACY_VERSION_3 ≤ b.nVersion then
      serBytes b.vchBlockSig
    else [])
  else [])

/-- `CBlockHeader::SerializationOp` reader, threading the destination
header: the C++ `READWRITE` reads each field in place, so fields read
before a stream failure stay written in the destination. -/
def deserHeaderD (s : List Byte) (d : CBlockHeader) :
    CBlockHeader × Option (List Byte) :=
  match deserInt32 s with
  | none => (d, none)
  | some (v, s1) =>
    let d1 : CBlockHeader := { d with nVersion := v }
    match deserNat 32 s1 with
    | none => (d1, none)
    | some (hp, s2) =>
      let d2 : CBlockHeader := { d1 with hashPrevBlock := hp }
      match deserNat 32 s2 with
      | none => (d2, none)
      | some (mr, s3) =>
        let d3 : CBlockHeader := { d2 with hashMerkleRoot := mr }
        match deserNat 4 s3 with
        | none => (d3, none)
        | some (t, s4) =>
          let d4 : CBlockHeader := { d3 with nTime := t }
          match deserNat 4 s4 with
          | none => (d4, none)
          | some (bs, s5) =>
            let d5 : CBlockHeader := { d4 with nBits := bs }
            match deserNat 4 s5 with
            | none => (d5, none)
            | some (nn, s6) => ({ d5 with nNonce := nn }, some s6)

/-- `CBlock::SerializationOp` reader, threading the destination block.
The branch on the version uses the freshly decoded `nVersion`.  In the
header-only pre-legacy-3 branch the reader clears `vtx` and
`vchBlockSig`; in the header-only legacy-3-or-later branch the signature
field is left untouched.  (The C++ in-place vector read may leave a part
of the vector on failure; this model assigns the vector only on success,
which is conservative about mutation-on-failure.) -/
def deserBlock (p : SerParams) (s : List Byte) (dest : CBlock) :
    CBlock × Option (List Byte) :=
  match deserHeaderD s dest.toCBlockHeader with
  | (h, none) => ({ dest with toCBlockHeader := h }, none)
  | (h, some s1) =>
    let d1 : CBlock := { dest with toCBlockHeader := h }
    if p.headerOnly = false ∨ LEGACY_VERSION_3 ≤ d1.nVersion then
      match deserVec deserTx s1 with
      | none => (d1, none)
      | some (txs, s2) =>
        let d2 : CBlock := { d1 with vtx := txs }
        if p.headerOnly = false ∧ LEGACY_VERSION_3 ≤ d2.nVersion then
          match deserBytesVec s2 with
          | none => (d2, none)
          | some (sig, s3) => ({ d2 with vchBlockSig := sig }, some s3)
        else (d2, some s2)
    else ({ d1 with vtx := [], vchBlockSig := [] }, some s1)

/-- Field bounds making an outpoint byte-encodable. -/
def WFOutPoint (o : COutPoint) : Prop :=
  o.hash < 2 ^ 256 ∧ o.n < 4294967296

/-- Field bounds making a transaction byte-encodable. -/
def WFTx (tx : CTransaction) : Prop :=
  tx.nTime < 4294967296 ∧ tx.vin.length < 18446744073709551616 ∧
  ∀ i ∈ tx.vin, WFOutPoint i.prevout

/-- Field bounds making a header byte-encodable. -/
def WFHeader (h : CBlockHeader) : Prop :=
  -2147483648 ≤ h.nVersion ∧ h.nVersion < 2147483648 ∧
  h.hashPrevBlock < 2 ^ 256 ∧ h.hashMerkleRoot < 2 ^ 256 ∧
  h.nTime < 4294967296 ∧ h.nBits < 4294967296 ∧ h.nNonce < 4294967296

/-- Field bounds making a block byte-encodable. -/
def WFBlock (b : CBlock) : Prop :=
  WFHeader b.toCBlockHeader ∧ b.vtx.length < 18446744073709551616 ∧
  (∀ tx ∈ b.vtx, WFTx tx) ∧
  b.vchBlockSig.length < 18446744073709551616 ∧
  ∀ c ∈ b.vchBlockSig, c < 256

instance (o : COutPoint) : Decidable (WFOutPoint o) := by
  unfold WFOutPoint; infer_instance

instance (tx : CTransaction) : Decidable (WFTx tx) := by
  unfold WFTx; infer_instance

instance (h : CBlockHeader) : Decidable (WFHeader h) := by
  unfold WFHeader; infer_instance

instance (b : CBlock) : Decidable (WFBlock b) := by
  unfold WFBlock; infer_instance

theorem deserOutPoint_ser (o : COutPoint) (rest : List Byte)
    (hw : WFOutPoint o) :
    deserOutPoint (serOutPoint o ++ rest) = some (o, rest) := by
  obtain ⟨h1, h2⟩ := hw
  simp only [serOutPoint, List.append_assoc, deserOutPoint,
    deserNat_ser 32 o.hash _ (by norm_num; omega),
    deserNat_ser 4 o.n _ (by norm_num; omega)]

theorem deserTxIn_ser (i : CTxIn) (rest : List Byte)
    (hw : WFOutPoint i.prevout) :
    deserTxIn (serTxIn i ++ rest) = some (i, rest) := by
  simp only [serTxIn, deserTxIn, deserOutPoint_ser i.prevout rest hw]

theorem deserTx_ser (tx : CTransaction) (rest : List Byte) (hw : WFTx tx) :
    deserTx (serTx tx ++ rest) = some (tx, rest) := by
  obtain ⟨h1, h2, h3⟩ := hw
  have hvin : ∀ r, deserVec deserTxIn (serVec serTxIn tx.vin ++ r) =
      some (tx.vin, r) :=
    fun r => deserVec_ser deserTxIn serTxIn tx.vin r h2
      (fun i hi r2 => deserTxIn_ser i r2 (h3 i hi))
  have hn : ∀ r, deserNat 4 (leBytes 4 tx.nTime ++ r) = some (tx.nTime, r) :=
    fun r => deserNat_ser 4 tx.nTime r (by norm_num; omega)
  obtain ⟨fc, nt, vin⟩ := tx
  cases fc
  · have hser : serTx ⟨false, nt, vin⟩ ++ rest =
        0 :: (leBytes 4 nt ++ (serVec serTxIn vin ++ rest)) := by
      simp [serTx]
    rw [hser]
    simp only [deserTx, hn, hvin]
    simp
  · have hser : serTx ⟨true, nt, vin⟩ ++ rest =
        1 :: (leBytes 4 nt ++ (serVec serTxIn vin ++ rest)) := by
      simp [serTx]
    rw [hser]
    simp only [deserTx, hn, hvin]
    simp

theorem deserHeaderD_ser (h : CBlockHeader) (d : CBlockHeader)
    (rest : List Byte) (hw : WFHeader h) :
    deserHeaderD (serHeader h ++ rest) d = (h, some rest) := by
  obtain ⟨h1, h2, h3, h4, h5, h6, h7⟩ := hw
  simp only [serHeader, List.append_assoc, deserHeaderD,
    deserInt32_ser h.nVersion _ h1 h2,
    deserNat_ser 32 h.hashPrevBlock _ (by norm_num; omega),
    deserNat_ser 32 h.hashMerkleRoot _ (by norm_num; omega),
    deserNat_ser 4 h.nTime _ (by norm_num; omega),
    deserNat_ser 4 h.nBits _ (by norm_num; omega),
    deserNat_ser 4 h.nNonce _ (by norm_num; omega)]

/-- Round trip of a block encoding, stated with an arbitrary trailing
stream.  The decoded block always carries `b`'s header; the body fields
follow the version/mode branches of `CBlock::SerializationOp`. -/
theorem deserBlock_serBlock (p : SerParams) (b dest : CBlock)
    (rest : List Byte) (hw : WFBlock b) :
    deserBlock p (serBlock p b ++ rest) dest =
      (if p.headerOnly = true ∧ b.nVersion < LEGACY_VERSION_3 then
        { dest with
          vtx := [], vchBlockSig := [], toCBlockHeader := b.toCBlockHeader }
      else if p.headerOnly = false ∧ LEGACY_VERSION_3 ≤ b.nVersion then
        { dest with
          vtx := b.vtx, vchBlockSig := b.vchBlockSig,
          toCBlockHeader := b.toCBlockHeader }
      else
        { dest with vtx := b.vtx, toCBlockHeader := b.toCBlockHeader },
      some rest) := by
  obtain ⟨hwh, hlen, htxs, hslen, hsbytes⟩ := hw
  have hvtx : ∀ r, deserVec deserTx (serVec serTx b.vtx ++ r) =
      some (b.vtx, r) :=
    fun r => deserVec_ser deserTx serTx b.vtx r hlen
      (fun tx htx r2 => deserTx_ser tx r2 (htxs tx htx))
  have hsig : ∀ r, deserBytesVec (serBytes b.vchBlockSig ++ r) =
      some (b.vchBlockSig, r) :=
    fun r => deserBytesVec_ser b.vchBlockSig r hslen
  by_cases hho : p.headerOnly = true
  · by_cases hv : b.nVersion < LEGACY_VERSION_3
    · -- header-only, pre-legacy-3: nothing after the header
      have hcond : ¬(p.headerOnly = false ∨ LEGACY_VERSION_3 ≤ b.nVersion) := by
        simp [hho, hv, not_lt.symm]
      simp only [serBlock, if_neg hcond, List.append_nil, List.append_assoc,
        deserBlock, deserHeaderD_ser b.toCBlockHeader dest.toCBlockHeader
          rest hwh]
      simp [hho, hv, hcond]
    · -- header-only, legacy-3-or-later: transactions but no signature
      have hcond : p.headerOnly = false ∨ LEGACY_VERSION_3 ≤ b.nVersion := by
        right; omega
      have hcond2 : ¬(p.headerOnly = false ∧ LEGACY_VERSION_3 ≤ b.nVersion) := by
        simp [hho]
      simp only [serBlock, if_pos hcond, if_neg hcond2, List.append_nil,
        List.append_assoc, deserBlock,
        deserHeaderD_ser b.toCBlockHeader dest.toCBlockHeader _ hwh]
      simp only [if_pos hcond, hvtx rest, if_neg hcond2]
      simp [hho, hv, hcond2]
  · -- full mode: transactions always; signature iff legacy-3-or-later
    have hho' : p.headerOnly = false := by
      cases hpf : p.headerOnly
      · rfl
      · exact absurd hpf hho
    by_cases hv : LEGACY_VERSION_3 ≤ b.nVersion
    · have hcond : p.headerOnly = false ∨ LEGACY_VERSION_3 ≤ b.nVersion :=
        Or.inl hho'
      have hcond2 : p.headerOnly = false ∧ LEGACY_VERSION_3 ≤ b.nVersion :=
        ⟨hho', hv⟩
      simp only [serBlock, if_pos hcond, if_pos hcond2, List.append_assoc,
        deserBlock, deserHeaderD_ser b.toCBlockHeader dest.toCBlockHeader
          _ hwh]
      simp only [if_pos hcond, hvtx _, if_pos hcond2, hsig rest]
      simp [hho', hv]
    · have hcond : p.headerOnly = false ∨ LEGACY_VERSION_3 ≤ b.nVersion :=
        Or.inl hho'
      have hcond2 : ¬(p.headerOnly = false ∧ LEGACY_VERSION_3 ≤ b.nVersion) := by
        simp [hv]
      simp only [serBlock, if_pos hcond, if_neg hcond2, List.append_nil,
        List.append_assoc, deserBlock,
        deserHeaderD_ser b.toCBlockHeader dest.toCBlockHeader _ hwh]
      simp only [if_pos hcond, hvtx rest, if_neg hcond2]
      simp [hho', hv]

theorem readBytes_append_stable (n : Nat) (s t : List Byte) (a r : List Byte)
    (h : readBytes n s = some (a, r)) :
    readBytes n (s ++ t) = some (a, r ++ t) := by
  simp only [readBytes] at h ⊢
  by_cases hn : n ≤ s.length
  · simp only [hn, if_pos, Option.some.injEq, Prod.mk.injEq] at h
    have hlen : n ≤ (s ++ t).length := by simp; omega
    simp only [hlen, if_pos, Option.some.injEq, Prod.mk.injEq]
    constructor
    · rw [List.take_append_of_le_length hn]; exact h.1
    · rw [List.drop_append_of_le_length hn, h.2]
  · simp [hn] at h

theorem deserNat_append_stable (w : Nat) (s t : List Byte) (a : Nat)
    (r : List Byte) (h : deserNat w s = some (a, r)) :
    deserNat w (s ++ t) = some (a, r ++ t) := by
  simp only [deserNat] at h ⊢
  cases hrb : readBytes w s with
  | none => simp [hrb] at h
  | some br =>
    obtain ⟨bs, r0⟩ := br
    simp only [hrb, Option.some.injEq, Prod.mk.injEq] at h
    rw [readBytes_append_stable w s t bs r0 hrb]
    simp [h.1, h.2]

theorem deserInt32_append_stable (s t : List Byte) (a : Int) (r : List Byte)
    (h : deserInt32 s = some (a, r)) :
    deserInt32 (s ++ t) = some (a, r ++ t) := by
  simp only [deserInt32] at h ⊢
  cases hn : deserNat 4 s with
  | none => simp [hn] at h
  | some nr =>
    obtain ⟨n, r0⟩ := nr
    simp only [hn, Option.some.injEq, Prod.mk.injEq] at h
    rw [deserNat_append_stable 4 s t n r0 hn]
    simp [h.1, h.2]

theorem deserCompactSize_append_stable (s t : List Byte) (a : Nat)
    (r : List Byte) (h : deserCompactSize s = some (a, r)) :
    deserCompactSize (s ++ t) = some (a, r ++ t) := by
  cases s with
  | nil => simp [deserCompactSize] at h
  | cons b s0 =>
    simp only [deserCompactSize, List.cons_append] at h ⊢
    by_cases h1 : b < 253
    · simp only [h1, if_pos, Option.some.injEq, Prod.mk.injEq] at h ⊢
      exact ⟨h.1, by rw [← h.2]⟩
    · by_cases h2 : b = 253
      · simp only [h1, h2, if_neg, if_pos, reduceIte] at h ⊢
        exact deserNat_append_stable 2 s0 t a r h
      · by_cases h3 : b = 254
        · simp only [h1, h2, h3, reduceIte] at h ⊢
          exact deserNat_append_stable 4 s0 t a r h
        · simp only [h1, h2, h3, reduceIte] at h ⊢
          exact deserNat_append_stable 8 s0 t a r h

theorem deserItems_append_stable
    (dec : List Byte → Option (α × List Byte))
    (hdec : ∀ s t a r, dec s = some (a, r) → dec (s ++ t) = some (a, r ++ t))
    (n : Nat) (s t : List Byte) (xs : List α) (r : List Byte)
    (h : deserItems dec n s = some (xs, r)) :
    deserItems dec n (s ++ t) = some (xs, r ++ t) := by
  induction n generalizing s xs with
  | zero =>
    simp only [deserItems, Option.some.injEq, Prod.mk.injEq] at h ⊢
    exact ⟨h.1, by rw [← h.2]⟩
  | succ n ih =>
    simp only [deserItems] at h ⊢
    cases hd : dec s with
    | none => simp [hd] at h
    | some xr =>
      obtain ⟨x, s1⟩ := xr
      simp only [hd] at h
      cases hi : deserItems dec n s1 with
      | none => simp [hi] at h
      | some yr =>
        obtain ⟨ys, s2⟩ := yr
        simp only [hi, Option.some.injEq, Prod.mk.injEq] at h
        rw [hdec s t x s1 hd]
        simp only [ih s1 ys (by rw [hi, h.2])]
        simp [h.1]

theorem deserVec_append_stable (dec : List Byte → Option (α × List Byte))
    (hdec : ∀ s t a r, dec s = some (a, r) → dec (s ++ t) = some (a, r ++ t))
    (s t : List Byte) (xs : List α) (r : List Byte)
    (h : deserVec dec s = some (xs, r)) :
    deserVec dec (s ++ t) = some (xs, r ++ t) := by
  simp only [deserVec] at h ⊢
  cases hc : deserCompactSize s with
  | none => simp [hc] at h
  | some nr =>
    obtain ⟨n, r0⟩ := nr
    simp only [hc] at h
    rw [deserCompactSize_append_stable s t n r0 hc]
    exact deserItems_append_stable dec hdec n r0 t xs r h

theorem deserBytesVec_append_stable (s t : List Byte) (a r : List Byte)
    (h : deserBytesVec s = some (a, r)) :
    deserBytesVec (s ++ t) = some (a, r ++ t) := by
  simp only [deserBytesVec] at h ⊢
  cases hc : deserCompactSize s with
  | none => simp [hc] at h
  | some nr =>
    obtain ⟨n, r0⟩ := nr
    simp only [hc] at h
    rw [deserCompactSize_append_stable s t n r0 hc]
    exact readBytes_append_stable n r0 t a r h

theorem deserOutPoint_append_stable (s t : List Byte) (a : COutPoint)
    (r : List Byte) (h : deserOutPoint s = some (a, r)) :
    deserOutPoint (s ++ t) = some (a, r ++ t) := by
  simp only [deserOutPoint] at h ⊢
  cases h1 : deserNat 32 s with
  | none => simp [h1] at h
  | some hr1 =>
    obtain ⟨x1, s1⟩ := hr1
    simp only [h1] at h
    cases h2 : deserNat 4 s1 with
    | none => simp [h2] at h
    | some hr2 =>
      obtain ⟨x2, s2⟩ := hr2
      simp only [h2, Option.some.injEq, Prod.mk.injEq] at h
      simp only [deserNat_append_stable 32 s t x1 s1 h1,
        deserNat_append_stable 4 s1 t x2 s2 h2, Option.some.injEq,
        Prod.mk.injEq]
      exact ⟨h.1, by rw [← h.2]⟩

theorem deserTxIn_append_stable (s t : List Byte) (a : CTxIn) (r : List Byte)
    (h : deserTxIn s = some (a, r)) :
    deserTxIn (s ++ t) = some (a, r ++ t) := by
  simp only [deserTxIn] at h ⊢
  cases h1 : deserOutPoint s with
  | none => simp [h1] at h
  | some xr =>
    obtain ⟨o, s1⟩ := xr
    simp only [h1, Option.some.injEq, Prod.mk.injEq] at h
    rw [deserOutPoint_append_stable s t o s1 h1]
    simp [h.1, h.2]

theorem deserTx_append_stable (s t : List Byte) (a : CTransaction)
    (r : List Byte) (h : deserTx s = some (a, r)) :
    deserTx (s ++ t) = some (a, r ++ t) := by
  cases s with
  | nil => simp [deserTx] at h
  | cons b s0 =>
    simp only [deserTx, List.cons_append] at h ⊢
    cases h1 : deserNat 4 s0 with
    | none => simp [h1] at h
    | some hr1 =>
      obtain ⟨x1, s1⟩ := hr1
      simp only [h1] at h
      cases h2 : deserVec deserTxIn s1 with
      | none => simp [h2] at h
      | some hr2 =>
        obtain ⟨ins, s2⟩ := hr2
        simp only [h2, Option.some.injEq, Prod.mk.injEq] at h
        simp only [deserNat_append_stable 4 s0 t x1 s1 h1,
          deserVec_append_stable deserTxIn deserTxIn_append_stable
            s1 t ins s2 h2, Option.some.injEq, Prod.mk.injEq]
        exact ⟨h.1, by rw [← h.2]⟩

theorem deserHeaderD_append_stable (s t : List Byte) (d : CBlockHeader)
    (h0 : CBlockHeader) (r : List Byte)
    (h : deserHeaderD s d = (h0, some r)) :
    deserHeaderD (s ++ t) d = (h0, some (r ++ t)) := by
  simp only [deserHeaderD] at h ⊢
  cases e1 : deserInt32 s with
  | none => simp [e1, Prod.mk.injEq] at h
  | some p1 =>
    obtain ⟨v, s1⟩ := p1
    simp only [e1] at h
    cases e2 : deserNat 32 s1 with
    | none => simp [e2, Prod.mk.injEq] at h
    | some p2 =>
      obtain ⟨hp, s2⟩ := p2
      simp only [e2] at h
      cases e3 : deserNat 32 s2 with
      | none => simp [e3, Prod.mk.injEq] at h
      | some p3 =>
        obtain ⟨mr, s3⟩ := p3
        simp only [e3] at h
        cases e4 : deserNat 4 s3 with
        | none => simp [e4, Prod.mk.injEq] at h
        | some p4 =>
          obtain ⟨tm, s4⟩ := p4
          simp only [e4] at h
          cases e5 : deserNat 4 s4 with
          | none => simp [e5, Prod.mk.injEq] at h
          | some p5 =>
            obtain ⟨bs, s5⟩ := p5
            simp only [e5] at h
            cases e6 : deserNat 4 s5 with
            | none => simp [e6, Prod.mk.injEq] at h
            | some p6 =>
              obtain ⟨nn, s6⟩ := p6
              simp only [e6, Prod.mk.injEq, Option.some.injEq] at h
              simp only [deserInt32_append_stable s t v s1 e1,
                deserNat_append_stable 32 s1 t hp s2 e2,
                deserNat_append_stable 32 s2 t mr s3 e3,
                deserNat_append_stable 4 s3 t tm s4 e4,
                deserNat_append_stable 4 s4 t bs s5 e5,
                deserNat_append_stable 4 s5 t nn s6 e6,
                Prod.mk.injEq, Option.some.injEq]
              exact ⟨h.1, by rw [← h.2]⟩

theorem deserBlock_append_stable (p : SerParams) (s t : List Byte)
    (dest : CBlock) (b0 : CBlock) (r : List Byte)
    (h : deserBlock p s dest = (b0, some r)) :
    deserBlock p (s ++ t) dest = (b0, some (r ++ t)) := by
  simp only [deserBlock] at h ⊢
  cases e1 : deserHeaderD s dest.toCBlockHeader with
  | mk h1 o1 =>
    cases o1 with
    | none => simp [e1] at h
    | some s1 =>
      rw [deserHeaderD_append_stable s t dest.toCBlockHeader h1 s1 e1]
      simp only [e1] at h
      by_cases hc : p.headerOnly = false ∨ LEGACY_VERSION_3 ≤
          ({ dest with toCBlockHeader := h1 } : CBlock).nVersion
      · simp only [if_pos hc] at h ⊢
        cases e2 : deserVec deserTx s1 with
        | none => simp [e2] at h
        | some p2 =>
          obtain ⟨txs, s2⟩ := p2
          rw [deserVec_append_stable deserTx deserTx_append_stable
            s1 t txs s2 e2]
          simp only [e2] at h
          by_cases hc2 : p.headerOnly = false ∧ LEGACY_VERSION_3 ≤
              ({ { dest with toCBlockHeader := h1 } with vtx := txs } :
                CBlock).nVersion
          · simp only [if_pos hc2] at h ⊢
            cases e3 : deserBytesVec s2 with
            | none => simp [e3] at h
            | some p3 =>
              obtain ⟨sig, s3⟩ := p3
              rw [deserBytesVec_append_stable s2 t sig s3 e3]
              simp only [e3, Prod.mk.injEq, Option.some.injEq] at h
              simp [h.1, h.2]
          · simp only [if_neg hc2, Prod.mk.injEq, Option.some.injEq] at h ⊢
            exact ⟨h.1, by rw [← h.2]⟩
      · simp only [if_neg hc, Prod.mk.injEq, Option.some.injEq] at h ⊢
        exact ⟨h.1, by rw [← h.2]⟩

/-- Round trip with the exact encoding and nothing after it. -/
theorem deserBlock_serBlock_nil (p : SerParams) (b dest : CBlock)
    (hw : WFBlock b) :
    deserBlock p (serBlock p b) dest =
      (if p.headerOnly = true ∧ b.nVersion < LEGACY_VERSION_3 then
        { dest with
          vtx := [], vchBlockSig := [], toCBlockHeader := b.toCBlockHeader }
      else if p.headerOnly = false ∧ LEGACY_VERSION_3 ≤ b.nVersion then
        { dest with
          vtx := b.vtx, vchBlockSig := b.vchBlockSig,
          toCBlockHeader := b.toCBlockHeader }
      else
        { dest with vtx := b.vtx, toCBlockHeader := b.toCBlockHeader },
      some []) := by
  have h := deserBlock_serBlock p b dest [] hw
  rwa [List.append_nil] at h

/-- A stake transaction with one input, used as concrete test data. -/
def txStake : CTransaction := ⟨true, 1234, [⟨⟨77, 5⟩⟩]⟩

/-- A non-stake transaction with one input, used as concrete test data. -/
def txPlain : CTransaction := ⟨false, 99, [⟨⟨3, 1⟩⟩]⟩

/-- A two-transaction block whose transaction 1 is a stake transaction. -/
def blkPoS : CBlock := ⟨⟨4, 10, 11, 12, 13, 14⟩, [txPlain, txStake], [7], 0, false⟩

/-- `blkPoS` with the body fields stripped but the same header. -/
def blkPoSHdrOnly : CBlock := ⟨⟨4, 10, 11, 12, 13, 14⟩, [], [], 0, false⟩

/-- A two-transaction block whose transaction 1 is not a stake
transaction: a proof-of-work block with a well-defined discriminator. -/
def blkPoW2 : CBlock := ⟨⟨4, 10, 11, 12, 13, 14⟩, [txPlain, txPlain], [], 0, false⟩

/-- A block holding exactly one transaction. -/
def blkOne : CBlock := ⟨⟨4, 10, 11, 12, 13, 14⟩, [txPlain], [], 0, false⟩

/-- A version-3 block with an empty transaction list and a nonempty
block signature. -/
def blkSig3 : CBlock := ⟨⟨3, 0, 0, 0, 0, 0⟩, [], [1], 0, false⟩

/-- A version-5 block with empty body fields. -/
def blk5 : CBlock := ⟨⟨5, 0, 0, 0, 0, 0⟩, [], [], 0, false⟩

/-- A legacy-2 block with one transaction and a signature. -/
def blkV2 : CBlock := ⟨⟨2, 1, 2, 3, 4, 5⟩, [txPlain], [9], 0, false⟩

/-- A legacy-3 block with one transaction and a signature. -/
def blkV3 : CBlock := ⟨⟨3, 1, 2, 3, 4, 5⟩, [txPlain], [9], 0, false⟩

/-- Header-only wire serialization context (protocol version 0). -/
def pHdrNet : SerParams := ⟨true, false, 0⟩

/-- Full wire serialization context (protocol version 0). -/
def pFullNet : SerParams := ⟨false, false, 0⟩

/-- C1: the claim says `is_proof_of_stake()` returns true exactly when the
block has more than one transaction and transaction 1 is a stake
transaction, and in particular returns false whenever the block has at
most one transaction.  The code binds the reference `*vtx[1]` before the
size guard, so at the failing inputs (blocks with zero or one
transactions) the access is out of bounds and no boolean is returned at
all (modelled as `none`); for blocks with two or more transactions the
result matches transaction 1's classification as claimed. -/
theorem C1_isProofOfStake_guard_bug :
    CBlock.IsProofOfStake nullCBlock = none ∧
    CBlock.IsProofOfStake blkOne = none ∧
    CBlock.IsProofOfStake blkPoS = some true ∧
    CBlock.IsProofOfStake blkPoW2 = some false := by
  refine ⟨rfl, rfl, rfl, rfl⟩

/-- C4: the claim says the three discriminator operations are total because
transaction index 1 is accessed only when the transaction list has more
than one element.  In the code the access precedes the guard: on a block
with a single transaction all three operations perform an out-of-bounds
access (modelled as `none`), so the out-of-bounds branch is reachable. -/
theorem C4_discriminator_totality_bug :
    CBlock.IsProofOfStake blkOne = none ∧
    CBlock.IsProofOfWork blkOne = none ∧
    CBlock.GetProofOfStake blkOne = none := by
  refine ⟨rfl, rfl, rfl⟩

/-- C5 counterexample: `blkPoW2` is a proof-of-work block with two
transactions, and `proof_of_stake_kernel` returns the zeroed sentinel pair
rather than an absent value — the claim's "explicit absent value, not a
zeroed sentinel pair" is false at this input. -/
theorem C5_counterexample :
    CBlock.IsProofOfWork blkPoW2 = some true ∧
    CBlock.GetProofOfStake blkPoW2 = some (nullOutPoint, 0) := by
  refine ⟨rfl, rfl⟩

/-- C5 (amended): for a block with at most one transaction the kernel
query's unguarded `vtx[1]` access is out of bounds and yields no value
(modelled as `none`); for a block with at least two transactions whose
transaction 1 is not a stake transaction it returns the zeroed sentinel
pair; for a proof-of-stake block it returns the pair (first input's
referenced output of transaction 1, transaction 1's timestamp). -/
theorem C5_kernel_amended :
    (∀ b : CBlock, b.vtx.length ≤ 1 → b.GetProofOfStake = none) ∧
    (∀ (b : CBlock) (tx : CTransaction), b.vtx[1]? = some tx →
      tx.IsCoinStake = false → b.GetProofOfStake = some (nullOutPoint, 0)) ∧
    (∀ (b : CBlock) (tx : CTransaction) (i : CTxIn), b.vtx[1]? = some tx →
      tx.IsCoinStake = true → tx.vin[0]? = some i →
      b.GetProofOfStake = some (i.prevout, tx.nTime)) := by
  refine ⟨?_, ?_, ?_⟩
  · intro b hlen
    have hnone : b.vtx[1]? = none := List.getElem?_eq_none hlen
    simp [CBlock.GetProofOfStake, hnone]
  · intro b tx hget hst
    simp [CBlock.GetProofOfStake, CBlock.IsProofOfStake, hget, hst]
  · intro b tx i hget hst hvin
    have hlt : 1 < b.vtx.length := by
      by_contra hc
      rw [List.getElem?_eq_none (by omega)] at hget
      exact Option.noConfusion hget
    simp [CBlock.GetProofOfStake, CBlock.IsProofOfStake, hget, hst, hlt, hvin]

/-- C5 witness: the amended statement applied at concrete blocks — a
one-transaction block (absent), `blkPoW2` (sentinel pair), and `blkPoS`
(kernel data of transaction 1). -/
theorem C5_kernel_amended_witness :
    CBlock.GetProofOfStake blkOne = none ∧
    CBlock.GetProofOfStake blkPoW2 = some (nullOutPoint, 0) ∧
    CBlock.GetProofOfStake blkPoS = some (⟨77, 5⟩, 1234) :=
  ⟨C5_kernel_amended.1 blkOne (by decide),
   C5_kernel_amended.2.1 blkPoW2 txPlain (by decide) (by decide),
   C5_kernel_amended.2.2 blkPoS txStake ⟨⟨77, 5⟩⟩ (by decide) (by decide)
     (by decide)⟩

/-- C7: `is_null()` is true exactly when `nBits = 0`, and depends on no
other field — two headers agreeing on `nBits` alone have the same
nullness. -/
theorem C7_isNull_iff_bits_zero (h1 h2 : CBlockHeader)
    (hb : h1.nBits = h2.nBits) :
    (h1.IsNull = true ↔ h1.nBits = 0) ∧ h1.IsNull = h2.IsNull := by
  constructor
  · simp [CBlockHeader.IsNull]
  · simp [CBlockHeader.IsNull, hb]

/-- C7 witness: two headers that differ in every field except `nBits`. -/
theorem C7_isNull_witness :
    ((⟨1, 2, 3, 4, 0, 6⟩ : CBlockHeader).IsNull = true ↔
      (⟨1, 2, 3, 4, 0, 6⟩ : CBlockHeader).nBits = 0) ∧
    (⟨1, 2, 3, 4, 0, 6⟩ : CBlockHeader).IsNull =
      (⟨9, 8, 7, 6, 0, 4⟩ : CBlockHeader).IsNull :=
  C7_isNull_iff_bits_zero ⟨1, 2, 3, 4, 0, 6⟩ ⟨9, 8, 7, 6, 0, 4⟩ rfl

/-- C8: the identity hash is a function of the six header fields only —
for any hash primitive, two blocks agreeing on version, previous hash,
merkle root, time, bits and nonce hash identically, whatever their
transaction lists and block signatures. -/
theorem C8_hash_ignores_body (hashFn : List Byte → Nat) (b1 b2 : CBlock)
    (h1 : b1.nVersion = b2.nVersion)
    (h2 : b1.hashPrevBlock = b2.hashPrevBlock)
    (h3 : b1.hashMerkleRoot = b2.hashMerkleRoot)
    (h4 : b1.nTime = b2.nTime) (h5 : b1.nBits = b2.nBits)
    (h6 : b1.nNonce = b2.nNonce) :
    b1.GetHash hashFn = b2.GetHash hashFn := by
  simp only [CBlock.GetHash, CBlockHeader.GetHash]
  congr 1
  simp only [serHeader, h1, h2, h3, h4, h5, h6]

/-- C8 witness: stripping `blkPoS`'s transactions and signature leaves its
identity hash (here the little-endian reading primitive) unchanged. -/
theorem C8_hash_ignores_body_witness :
    CBlock.GetHash fromLE blkPoS = CBlock.GetHash fromLE blkPoSHdrOnly :=
  C8_hash_ignores_body fromLE blkPoS blkPoSHdrOnly rfl rfl rfl rfl rfl rfl

/-- C9: in a non-hash context an empty locator serializes to the 4-byte
protocol-version integer followed by the single zero count byte and
nothing else, and `is_null()` holds exactly for the empty sequence. -/
theorem C9_locator_empty (p : SerParams) (loc : CBlockLocator)
    (hg : p.getHash = false) (he : loc.vHave = []) :
    serLocator p loc = serInt32 p.nVersion ++ [0] ∧
    (serInt32 p.nVersion).length = 4 ∧
    ∀ l : CBlockLocator, l.IsNull = true ↔ l.vHave = [] := by
  refine ⟨?_, ?_, ?_⟩
  · simp [serLocator, hg, he, serVec, serCompactSize]
  · simp [serInt32, leBytes_length]
  · intro l
    simp [CBlockLocator.IsNull, List.isEmpty_iff]

/-- C9 witness: the empty locator in the full wire context (protocol
version 0) serializes to four zero bytes and the zero count marker. -/
theorem C9_locator_empty_witness :
    serLocator pFullNet ⟨[]⟩ = serInt32 0 ++ [0] ∧
    (serInt32 (0 : Int)).length = 4 ∧
    ∀ l : CBlockLocator, l.IsNull = true ↔ l.vHave = [] :=
  C9_locator_empty pFullNet ⟨[]⟩ rfl rfl

/-- C10: `DoS(amount, outcome)` adds the penalty amount to the accumulated
misbehavior score and returns the outcome argument unchanged. -/
theorem C10_DoS_accumulates (b : CBlock) (amount : Int) (outcome : Bool) :
    ((b.DoS amount outcome).1.nDoS = b.nDoS + amount) ∧
    (b.DoS amount outcome).2 = outcome :=
  ⟨rfl, rfl⟩

/-- C2 counterexample: encode `blkSig3` (version 3, block signature `[1]`)
in header-only mode and decode it into the null block.  Decoding succeeds
and consumes the whole stream, and the version is not below legacy-3, so
the claim's exception clause does not apply — yet the decoded signature is
`[]`, not the original `[1]`: the signature is not reproduced. -/
theorem C2_counterexample :
    blkSig3.nVersion = 3 ∧ blkSig3.vchBlockSig = [1] ∧
    pHdrNet.headerOnly = true ∧
    (deserBlock pHdrNet (serBlock pHdrNet blkSig3) nullCBlock).2 = some [] ∧
    (deserBlock pHdrNet (serBlock pHdrNet blkSig3) nullCBlock).1.vchBlockSig
      = [] := by
  refine ⟨rfl, rfl, rfl, by decide, by decide⟩

/-- C2 (amended): decoding the encoding of an encodable block under the
same version and mode succeeds, consumes the whole stream, and reproduces
the six header fields; the transaction list is reproduced except in
header-only mode with version < 3, where both it and the signature are
cleared; the signature itself is reproduced only in full mode with
version ≥ 3 — in header-only mode with version ≥ 3 and in full mode with
version < 3 it is not serialized at all and the destination's prior
signature value is kept. -/
theorem C2_roundtrip_amended (p : SerParams) (b dest : CBlock)
    (hw : WFBlock b) :
    (deserBlock p (serBlock p b) dest).2 = some [] ∧
    (deserBlock p (serBlock p b) dest).1.toCBlockHeader = b.toCBlockHeader ∧
    ((p.headerOnly = true ∧ b.nVersion < LEGACY_VERSION_3) →
      (deserBlock p (serBlock p b) dest).1.vtx = [] ∧
      (deserBlock p (serBlock p b) dest).1.vchBlockSig = []) ∧
    (¬(p.headerOnly = true ∧ b.nVersion < LEGACY_VERSION_3) →
      (deserBlock p (serBlock p b) dest).1.vtx = b.vtx) ∧
    ((p.headerOnly = false ∧ LEGACY_VERSION_3 ≤ b.nVersion) →
      (deserBlock p (serBlock p b) dest).1.vchBlockSig = b.vchBlockSig) ∧
    (((p.headerOnly = true ∧ LEGACY_VERSION_3 ≤ b.nVersion) ∨
      (p.headerOnly = false ∧ b.nVersion < LEGACY_VERSION_3)) →
      (deserBlock p (serBlock p b) dest).1.vchBlockSig =
        dest.vchBlockSig) := by
  rw [deserBlock_serBlock_nil p b dest hw]
  by_cases h1 : p.headerOnly = true ∧ b.nVersion < LEGACY_VERSION_3
  · rw [if_pos h1]
    refine ⟨rfl, rfl, fun _ => ⟨rfl, rfl⟩, fun hc => absurd h1 hc,
      fun hc => ?_, fun hc => ?_⟩
    · exact Bool.noConfusion (hc.1.symm.trans h1.1)
    · rcases hc with hc | hc
      · exact absurd hc.2 (not_le.mpr h1.2)
      · exact Bool.noConfusion (hc.1.symm.trans h1.1)
  · rw [if_neg h1]
    by_cases h2 : p.headerOnly = false ∧ LEGACY_VERSION_3 ≤ b.nVersion
    · rw [if_pos h2]
      refine ⟨rfl, rfl, fun hc => absurd hc h1, fun _ => rfl, fun _ => rfl,
        fun hc => ?_⟩
      rcases hc with hc | hc
      · exact Bool.noConfusion (h2.1.symm.trans hc.1)
      · exact absurd h2.2 (not_le.mpr hc.2)
    · rw [if_neg h2]
      exact ⟨rfl, rfl, fun hc => absurd hc h1, fun _ => rfl,
        fun hc => absurd hc h2, fun _ => rfl⟩

/-- C2 witness: the amended round trip applied to `blkPoS` in the full
wire context, decoding into the null block. -/
theorem C2_roundtrip_amended_witness :
    (deserBlock pFullNet (serBlock pFullNet blkPoS) nullCBlock).2 = some [] ∧
    (deserBlock pFullNet (serBlock pFullNet blkPoS) nullCBlock).1.toCBlockHeader
      = blkPoS.toCBlockHeader ∧
    (deserBlock pFullNet (serBlock pFullNet blkPoS) nullCBlock).1.vtx
      = blkPoS.vtx ∧
    (deserBlock pFullNet (serBlock pFullNet blkPoS) nullCBlock).1.vchBlockSig
      = blkPoS.vchBlockSig :=
  ⟨(C2_roundtrip_amended pFullNet blkPoS nullCBlock (by decide)).1,
   (C2_roundtrip_amended pFullNet blkPoS nullCBlock (by decide)).2.1,
   (C2_roundtrip_amended pFullNet blkPoS nullCBlock (by decide)).2.2.2.1
     (by decide),
   (C2_roundtrip_amended pFullNet blkPoS nullCBlock (by decide)).2.2.2.2.1
     (by decide)⟩

/-- C3: encoding with version 2 in header-only mode yields exactly the raw
six-field header bytes; with version 3 in header-only mode the header
followed by the transaction sequence and nothing else; with version 4 in
full mode the header, the transaction sequence, and the block signature,
in that order. -/
theorem C3_version_mode_layout :
    (∀ (p : SerParams) (b : CBlock), p.headerOnly = true →
      b.nVersion = LEGACY_VERSION_2 →
      serBlock p b = serHeader b.toCBlockHeader) ∧
    (∀ (p : SerParams) (b : CBlock), p.headerOnly = true →
      b.nVersion = LEGACY_VERSION_3 →
      serBlock p b = serHeader b.toCBlockHeader ++ serVec serTx b.vtx) ∧
    (∀ (p : SerParams) (b : CBlock), p.headerOnly = false →
      b.nVersion = CURRENT_VERSION →
      serBlock p b = serHeader b.toCBlockHeader ++ serVec serTx b.vtx ++
        serBytes b.vchBlockSig) := by
  refine ⟨?_, ?_, ?_⟩
  · intro p b hho hv
    have hc : ¬(p.headerOnly = false ∨ LEGACY_VERSION_3 ≤ b.nVersion) := by
      rw [hho, hv]
      simp [LEGACY_VERSION_2, LEGACY_VERSION_3]
    simp [serBlock, hc]
  · intro p b hho hv
    have hv3 : b.nVersion = (3 : Int) := hv
    have hc : p.headerOnly = false ∨ LEGACY_VERSION_3 ≤ b.nVersion := by
      right
      simp [LEGACY_VERSION_3]
      omega
    have hc2 : ¬(p.headerOnly = false ∧ LEGACY_VERSION_3 ≤ b.nVersion) := by
      rw [hho]
      simp
    simp [serBlock, hc, hc2]
  · intro p b hho hv
    have hv4 : b.nVersion = (4 : Int) := hv
    have hc : p.headerOnly = false ∨ LEGACY_VERSION_3 ≤ b.nVersion :=
      Or.inl hho
    have hc2 : p.headerOnly = false ∧ LEGACY_VERSION_3 ≤ b.nVersion := by
      refine ⟨hho, ?_⟩
      simp [LEGACY_VERSION_3]
      omega
    simp [serBlock, hc, hc2, List.append_assoc]

/-- C3 witness: the three layouts at concrete blocks — a version-2 and a
version-3 block in the header-only context, and the version-4 block
`blkPoS` in the full context. -/
theorem C3_version_mode_layout_witness :
    serBlock pHdrNet blkV2 = serHeader blkV2.toCBlockHeader ∧
    serBlock pHdrNet blkV3 =
      serHeader blkV3.toCBlockHeader ++ serVec serTx blkV3.vtx ∧
    serBlock pFullNet blkPoS =
      serHeader blkPoS.toCBlockHeader ++ serVec serTx blkPoS.vtx ++
        serBytes blkPoS.vchBlockSig :=
  ⟨C3_version_mode_layout.1 pHdrNet blkV2 rfl rfl,
   C3_version_mode_layout.2.1 pHdrNet blkV3 rfl rfl,
   C3_version_mode_layout.2.2 pFullNet blkPoS rfl rfl⟩

/-- C6 counterexample: the first four bytes of a valid full-mode encoding
of a version-5 block form a truncated encoding; decoding it into the null
block fails, as the claim says, but the destination's version field has
already been overwritten with 5 — decode partially mutates the
destination and is not all-or-nothing. -/
theorem C6_counterexample :
    (serBlock pFullNet blk5).take 4 = [5, 0, 0, 0] ∧
    (deserBlock pFullNet [5, 0, 0, 0] nullCBlock).2 = none ∧
    (deserBlock pFullNet [5, 0, 0, 0] nullCBlock).1.nVersion = 5 ∧
    nullCBlock.nVersion = 0 := by
  refine ⟨by decide, by decide, by decide, rfl⟩

/-- C6 (amended): decoding any strict prefix of a block encoding fails
with a decode error; fields decoded before the truncation point, however,
remain written in the destination (decode is not all-or-nothing). -/
theorem C6_truncated_decode_fails (p : SerParams) (b dest : CBlock) (k : Nat)
    (hw : WFBlock b) (hk : k < (serBlock p b).length) :
    (deserBlock p ((serBlock p b).take k) dest).2 = none := by
  cases hres : deserBlock p ((serBlock p b).take k) dest with
  | mk b0 o =>
    cases o with
    | none => rfl
    | some r =>
      exfalso
      have hfull := deserBlock_append_stable p ((serBlock p b).take k)
        ((serBlock p b).drop k) dest b0 r hres
      rw [List.take_append_drop] at hfull
      rw [deserBlock_serBlock_nil p b dest hw] at hfull
      have h2 := congrArg Prod.snd hfull
      simp only [Option.some.injEq] at h2
      have h3 := congrArg List.length h2
      simp only [List.length_append, List.length_drop, List.length_nil] at h3
      omega

set_option maxRecDepth 4000 in
/-- C6 witness: decoding the first four bytes of `blkPoS`'s full encoding
fails. -/
theorem C6_truncated_decode_fails_witness :
    (deserBlock pFullNet ((serBlock pFullNet blkPoS).take 4) nullCBlock).2
      = none :=
  C6_truncated_decode_fails pFullNet blkPoS nullCBlock 4 (by decide)
    (by decide)

end SolarCoin
